import Mathlib

/-!
Verification development for the ConfigPlusPlus configuration-loading
library.  The library reads configuration values from process environment
variables and from YAML documents, exposes them as named attributes, and
renders a masked, human-readable summary.

The package implementation itself is not part of the available sources
(only its tests and examples are), so the operational definitions below
are modelled from the specification document; each such definition
carries a doc comment starting with "Modelled from the spec:".
-/

/-- Modelled from the spec: a configuration value.  Values may be a
scalar (string, integer, boolean), a file-system path, or a nested
structure (sequence or mapping) for YAML-backed loaders. -/
inductive Value where
  | vstr (s : String)
  | vint (n : Int)
  | vbool (b : Bool)
  | vpath (s : String)
  | vlist (xs : List Value)
  | vdict (kvs : List (String × Value))

/-- Whether the list `n` occurs at the head of the list `h`. -/
def listStarts (n h : List Char) : Bool :=
  match n, h with
  | [], _ => true
  | _ :: _, [] => false
  | c :: n2, d :: h2 => c == d && listStarts n2 h2

/-- Whether the list `n` occurs contiguously anywhere inside `h`. -/
def containsSub (n : List Char) : List Char → Bool
  | [] => n.isEmpty
  | c :: rest => listStarts n (c :: rest) || containsSub n rest

/-- String containment: does `hay` contain `needle` as a substring. -/
def strContains (hay needle : String) : Bool :=
  containsSub needle.data hay.data

/-- Upper-case a string character by character. -/
def upperStr (s : String) : String :=
  String.mk (s.data.map Char.toUpper)

/-- Lower-case a string character by character. -/
def lowerStr (s : String) : String :=
  String.mk (s.data.map Char.toLower)

/-- Modelled from the spec: the fixed keyword set of the Secret Masker. -/
def secretKeywords : List String :=
  ["SECRET", "KEY", "PASSWORD", "PASSWD", "TOKEN", "CREDENTIAL", "APIKEY"]

/-- Modelled from the spec: a name is classified secret when it
case-insensitively contains one of the fixed keywords; classification
never inspects the value, only the name. -/
def isSecretName (name : String) : Bool :=
  secretKeywords.any (fun k => strContains (upperStr name) k)

/-- Modelled from the spec: the fixed redaction marker string. -/
def hiddenMarker : String := "***hidden***"

/-- Modelled from the spec: the Secret Masker.  A null value is returned
unchanged (null is never secret); otherwise, when the name is classified
secret, the displayed value is replaced with the fixed redaction marker,
regardless of value length or type; otherwise the value is unchanged. -/
def mask_if_secret (name : String) (v : Option Value) : Option Value :=
  match v with
  | none => none
  | some w => if isSecretName name then some (Value.vstr hiddenMarker) else some w

theorem listStarts_self_append (n t : List Char) : listStarts n (n ++ t) = true := by
  induction n with
  | nil => rfl
  | cons c n2 ih => simp [listStarts, ih]

theorem containsSub_of_starts {n l : List Char} (h : listStarts n l = true) :
    containsSub n l = true := by
  cases l with
  | nil =>
    cases n with
    | nil => rfl
    | cons c n2 => simp [listStarts] at h
  | cons c rest => simp [containsSub, h]

theorem containsSub_cons_of {n rest : List Char} (c : Char)
    (h : containsSub n rest = true) : containsSub n (c :: rest) = true := by
  simp [containsSub, h]

theorem containsSub_append_middle (pre n post : List Char) :
    containsSub n (pre ++ n ++ post) = true := by
  induction pre with
  | nil => exact containsSub_of_starts (listStarts_self_append n post)
  | cons d pre2 ih => exact containsSub_cons_of d ih

theorem strContains_append_middle (pre needle post : String) :
    strContains (pre ++ needle ++ post) needle = true := by
  simpa [strContains, String.data_append] using
    containsSub_append_middle pre.data needle.data post.data

/-- Modelled from the spec: the casters supported by the Environment
Resolver (boolean, integer, path; a missing caster returns the raw
string unmodified). -/
inductive Caster where
  | toBool
  | toInt
  | toPath

/-- Modelled from the spec: the falsy set of the boolean caster. -/
def falsyTokens : List String := ["false", "0", "no", ""]

/-- Modelled from the spec: the boolean caster matches the string
case-insensitively against the falsy set; every other string casts to
true. -/
def castBool (s : String) : Bool :=
  !(falsyTokens.contains (lowerStr s))

/-- Modelled from the spec: apply a caster to a raw string; numeric
casters fail with a casting error when the string is not a valid
number, the path caster wraps the string without requiring existence. -/
def applyCaster (c : Caster) (s : String) : Except String Value :=
  match c with
  | Caster.toBool => Except.ok (Value.vbool (castBool s))
  | Caster.toInt =>
      match s.toInt? with
      | some n => Except.ok (Value.vint n)
      | none => Except.error ("cast error: " ++ s)
  | Caster.toPath => Except.ok (Value.vpath s)

/-- Modelled from the spec: configuration errors of the Environment
Resolver. -/
inductive EnvError where
  | missingRequired (msg : String)
  | castFailure (msg : String)

/-- Association-list lookup, used for the process environment and the
simulated file system. -/
def lookupAssoc {α : Type} (l : List (String × α)) (k : String) : Option α :=
  (l.find? (fun p => p.fst == k)).map Prod.snd

/-- Modelled from the spec: the Environment Resolver.  Resolution order:
take the raw environment string when the variable is present (casting
it when a caster is given); else use the default when one was supplied,
casting it only when the default is itself a raw string and a caster is
given (typed non-string defaults pass through unchanged); else fail
with a missing-required-variable configuration error when required is
true; else return the null sentinel. -/
def resolve (environ : List (String × String)) (name : String)
    (caster : Option Caster) (default : Option Value) (required : Bool) :
    Except EnvError (Option Value) :=
  match lookupAssoc environ name with
  | some raw =>
      match caster with
      | none => Except.ok (some (Value.vstr raw))
      | some c =>
          match applyCaster c raw with
          | Except.ok v => Except.ok (some v)
          | Except.error m => Except.error (EnvError.castFailure m)
  | none =>
      match default with
      | some d =>
          match d, caster with
          | Value.vstr s, some c =>
              match applyCaster c s with
              | Except.ok v => Except.ok (some v)
              | Except.error m => Except.error (EnvError.castFailure m)
          | _, _ => Except.ok (some d)
      | none =>
          if required then
            Except.error (EnvError.missingRequired ("missing required env var: " ++ name))
          else Except.ok none

/-- Modelled from the spec: a declared attribute of a configuration
definition is either a data value or a callable (method, class method,
static method). -/
inductive Member where
  | data (v : Value)
  | callable

/-- Modelled from the spec: the two loader styles sharing the
presentation layer. -/
inductive Style where
  | envStyle
  | yamlStyle

/-- Modelled from the spec: the fixed set of framework-owned attribute
names excluded from the registry of a YAML-style definition (the raw
tree holder is excluded already by the leading underscore rule). -/
def frameworkNames : List String := ["config_path", "logger"]

/-- Python-style uppercase test: at least one uppercase letter and no
lowercase letter (digits and underscores are neutral). -/
def pyIsUpper (s : String) : Bool :=
  s.data.any Char.isUpper && s.data.all (fun c => !(c.isLower))

/-- Modelled from the spec: the name filter of the Attribute Registry,
applied in order: exclude names starting with an underscore; then for
environment-style definitions exclude names that are not fully
uppercase-with-underscores, or for YAML-style definitions exclude the
fixed framework-owned names. -/
def keepName (st : Style) (name : String) : Bool :=
  !(listStarts ['_'] name.data) &&
    (match st with
     | Style.envStyle => pyIsUpper name
     | Style.yamlStyle => !(frameworkNames.contains name))

/-- Modelled from the spec: the Attribute Registry snapshot, keeping
only data entries whose name passes the filter and whose value is not
callable. -/
def to_dict (st : Style) (attrs : List (String × Member)) : List (String × Value) :=
  attrs.filterMap (fun p =>
    match p.snd with
    | Member.callable => none
    | Member.data v => if keepName st p.fst then some (p.fst, v) else none)

/-- Modelled from the spec: the group key of a name is the substring
before its first underscore. -/
def groupKey (name : String) : String :=
  String.mk (name.data.takeWhile (fun c => c != '_'))

/-- Lexicographic order on character lists by code point, the order of
the Python sorted builtin on strings. -/
def lexLe : List Char → List Char → Bool
  | [], _ => true
  | _ :: _, [] => false
  | c :: cs, d :: ds => if c == d then lexLe cs ds else decide (c < d)

theorem lexLe_total (l1 : List Char) : ∀ l2, lexLe l1 l2 = true ∨ lexLe l2 l1 = true := by
  induction l1 with
  | nil => intro l2; left; rfl
  | cons c cs ih =>
    intro l2
    cases l2 with
    | nil => right; rfl
    | cons d ds =>
      by_cases h : c = d
      · subst h
        simpa [lexLe] using ih ds
      · rcases lt_or_gt_of_ne h with hlt | hgt
        · left; simp [lexLe, h, hlt]
        · right; simp [lexLe, Ne.symm h, hgt]

theorem lexLe_trans : ∀ l1 l2 l3 : List Char,
    lexLe l1 l2 = true → lexLe l2 l3 = true → lexLe l1 l3 = true := by
  intro l1
  induction l1 with
  | nil => intro l2 l3 _ _; rfl
  | cons c cs ih =>
    intro l2 l3 h12 h23
    cases l2 with
    | nil => simp [lexLe] at h12
    | cons d ds =>
      cases l3 with
      | nil => simp [lexLe] at h23
      | cons e es =>
        by_cases hcd : c = d
        · subst hcd
          simp only [lexLe, beq_self_eq_true, if_true] at h12
          by_cases hce : c = e
          · subst hce
            simp only [lexLe, beq_self_eq_true, if_true] at h23 ⊢
            exact ih ds es h12 h23
          · simp only [lexLe, beq_iff_eq, hce, if_false] at h23 ⊢
            exact h23
        · simp only [lexLe, beq_iff_eq, hcd, if_false, decide_eq_true_eq] at h12
          by_cases hde : d = e
          · subst hde
            simp [lexLe, hcd, h12]
          · simp only [lexLe, beq_iff_eq, hde, if_false, decide_eq_true_eq] at h23
            have hce : c < e := lt_trans h12 h23
            simp [lexLe, ne_of_lt hce, hce]

/-- Name order on registry entries, used to sort entries within a
group alphabetically. -/
def leName (a b : String × Value) : Prop := lexLe a.fst.data b.fst.data = true

instance : DecidableRel leName :=
  fun a b => inferInstanceAs (Decidable (lexLe a.fst.data b.fst.data = true))

instance : IsTotal (String × Value) leName :=
  ⟨fun a b => lexLe_total a.fst.data b.fst.data⟩

instance : IsTrans (String × Value) leName :=
  ⟨fun a b c h1 h2 => lexLe_trans a.fst.data b.fst.data c.fst.data h1 h2⟩

/-- Alphabetical order on group keys. -/
def leStr (a b : String) : Prop := lexLe a.data b.data = true

instance : DecidableRel leStr :=
  fun a b => inferInstanceAs (Decidable (lexLe a.data b.data = true))

instance : IsTotal String leStr := ⟨fun a b => lexLe_total a.data b.data⟩

instance : IsTrans String leStr := ⟨fun a b c h1 h2 => lexLe_trans a.data b.data c.data h1 h2⟩

/-- Modelled from the spec: grouping of the registry for display.
Entries are ordered alphabetically by name within each group, and
groups are ordered alphabetically by key. -/
def grouped_items (registry : List (String × Value)) :
    List (String × List (String × Value)) :=
  let entries := List.insertionSort leName registry
  let keys := List.insertionSort leStr ((entries.map (fun p => groupKey p.fst)).dedup)
  keys.map (fun k => (k, entries.filter (fun p => groupKey p.fst == k)))

/-- Modelled from the spec: per-value display form.  Sequences render
as their item count, mappings as their key count; scalars render via
their natural string form; paths render as their (canonical) string. -/
def renderValue (v : Value) : String :=
  match v with
  | Value.vstr s => s
  | Value.vint n => toString n
  | Value.vbool b => if b then "True" else "False"
  | Value.vpath s => s
  | Value.vlist xs => "[" ++ toString xs.length ++ " items]"
  | Value.vdict kvs => "\x7b" ++ toString kvs.length ++ " keys\x7d"

/-- Modelled from the spec: one rendered line; the value passes through
the Secret Masker keyed by the attribute name before emission. -/
def renderEntry (name : String) (v : Value) : String :=
  match mask_if_secret name (some v) with
  | some w => name ++ " = " ++ renderValue w
  | none => name ++ " = None"

/-- Modelled from the spec: one rendered group section, a group marker
with the key followed by the NAME = value lines. -/
def renderGroup (g : String × List (String × Value)) : String :=
  "▶ " ++ g.fst ++ "\n" ++
    String.join (g.snd.map (fun p => "  " ++ renderEntry p.fst p.snd ++ "\n"))

/-- Modelled from the spec: the boxed textual summary, a header naming
the definition upper-cased, one section per group, a closing boundary. -/
def render (defName : String) (registry : List (String × Value)) : String :=
  "╔══ " ++ upperStr defName ++ " ══╗\n" ++
    String.join ((grouped_items registry).map renderGroup) ++ "╚══════╝"

/-- Position of the first occurrence of the character list `n` inside a
character list, when there is one. -/
def findSub (n : List Char) : List Char → Option Nat
  | [] => if n.isEmpty then some 0 else none
  | c :: rest =>
      if listStarts n (c :: rest) then some 0
      else (findSub n rest).map (fun i => i + 1)

/-- Position of the first occurrence of `needle` inside `hay`. -/
def posOf (hay needle : String) : Option Nat :=
  findSub needle.data hay.data

/-- Strict order on optional positions: both present and the first is
strictly earlier. -/
def posLt (a b : Option Nat) : Bool :=
  match a, b with
  | some i, some j => decide (i < j)
  | _, _ => false

/-- Modelled from the spec: the parsed YAML document, a nested
mapping/sequence/scalar tree. -/
inductive Yaml where
  | scalar (v : Value)
  | seqNode (xs : List Yaml)
  | mapNode (kvs : List (String × Yaml))

/-- Modelled from the spec: a constructed YAML-backed loader holds the
resolved source path and the raw tree as loader-private state. -/
structure YamlLoader where
  config_path : String
  raw_config : Yaml

/-- Modelled from the spec: the failure conditions of YAML loader
construction. -/
inductive YamlLoadError where
  | fileNotFound (path : String)
  | yamlParseError (msg : String)

/-- Modelled from the spec: YAML loader construction.  The file system
is a finite map from paths to contents and the YAML parser is an
external collaborator passed as a function.  Construction fails with a
file-not-found condition when the path has no content, fails with a
YAML parse error when the content does not parse (never substituting an
empty structure), and otherwise produces the loader instance. -/
def mkYamlLoader (fs : List (String × String)) (parse : String → Except String Yaml)
    (path : String) : Except YamlLoadError YamlLoader :=
  match lookupAssoc fs path with
  | none => Except.error (YamlLoadError.fileNotFound path)
  | some content =>
      match parse content with
      | Except.error m => Except.error (YamlLoadError.yamlParseError m)
      | Except.ok tree => Except.ok { config_path := path, raw_config := tree }

/-- Modelled from the spec: descend through the raw tree one segment at
a time; any missing segment (or a non-mapping node met before the
segments run out) yields no value. -/
def getPath (t : Yaml) : List String → Option Yaml
  | [] => some t
  | s :: rest =>
      match t with
      | Yaml.mapNode kvs =>
          match lookupAssoc kvs s with
          | some t2 => getPath t2 rest
          | none => none
      | _ => none

/-- Split a character list on a separator character; a list with no
separator yields one piece, and each separator starts a new piece. -/
def splitCharsOn (sep : Char) : List Char → List (List Char)
  | [] => [[]]
  | c :: rest =>
      if c == sep then [] :: splitCharsOn sep rest
      else
        match splitCharsOn sep rest with
        | [] => [[c]]
        | h :: t => (c :: h) :: t

/-- Split a dotted path string on the dot character. -/
def splitOnDot (s : String) : List String :=
  (splitCharsOn '.' s.data).map String.mk

/-- Modelled from the spec: dotted-path lookup of the YAML loader,
splitting the path on the dot, descending through the raw tree, and
returning the supplied default on any missing segment. -/
def yget (t : Yaml) (path : String) (default : Option Yaml) : Option Yaml :=
  match getPath t (splitOnDot path) with
  | some v => some v
  | none => default

/-- The dotted-path lookup relation as the spec words it: the empty
segment list designates the tree itself, and a first segment must name
an entry of a mapping node through which the remaining segments
descend. -/
inductive Descends : Yaml → List String → Yaml → Prop where
  | here (t : Yaml) : Descends t [] t
  | step (kvs : List (String × Yaml)) (s : String) (t2 v : Yaml) (rest : List String) :
      lookupAssoc kvs s = some t2 → Descends t2 rest v →
      Descends (Yaml.mapNode kvs) (s :: rest) v

theorem listStarts_append_of {n l : List Char} (t : List Char)
    (h : listStarts n l = true) : listStarts n (l ++ t) = true := by
  induction n generalizing l with
  | nil => rfl
  | cons c n2 ih =>
    cases l with
    | nil => simp [listStarts] at h
    | cons d l2 =>
      simp only [listStarts, Bool.and_eq_true] at h
      simpa [listStarts, h.1] using ih h.2

theorem containsSub_nil_all : ∀ l : List Char, containsSub [] l = true
  | [] => rfl
  | _ :: _ => by simp [containsSub, listStarts]

theorem containsSub_append_left {n l1 : List Char} (l2 : List Char)
    (h : containsSub n l1 = true) : containsSub n (l1 ++ l2) = true := by
  induction l1 with
  | nil =>
    cases n with
    | nil => exact containsSub_nil_all l2
    | cons c n2 => simp [containsSub, List.isEmpty] at h
  | cons c rest ih =>
    simp only [containsSub, Bool.or_eq_true] at h
    rcases h with h | h
    · exact containsSub_of_starts (listStarts_append_of l2 h)
    · exact containsSub_cons_of c (ih h)

theorem strContains_append_left (a b needle : String)
    (h : strContains a needle = true) : strContains (a ++ b) needle = true := by
  unfold strContains at h ⊢
  rw [String.data_append]
  exact containsSub_append_left b.data h

/-- C1: for a name that case-insensitively contains a secret keyword and
any non-null value, the masker returns exactly the fixed redaction
marker, independent of the value; the original value can therefore
occur in the displayed result only when it is itself a substring of the
fixed marker (as the counterexample value "hidden" is). -/
theorem mask_secret_fixed_marker (name : String) (v : Value) (s : String)
    (h : isSecretName name = true) :
    mask_if_secret name (some v) = some (Value.vstr hiddenMarker) ∧
    (strContains hiddenMarker s = false →
      ∀ w, mask_if_secret name (some v) = some (Value.vstr w) →
        strContains w s = false) := by
  constructor
  · simp [mask_if_secret, h]
  · intro hs w hw
    simp only [mask_if_secret, h, if_true, Option.some.injEq, Value.vstr.injEq] at hw
    rw [← hw]
    exact hs

theorem mask_secret_fixed_marker_witness :
    isSecretName "API_KEY" = true ∧
    mask_if_secret "API_KEY" (some (Value.vstr "abc")) = some (Value.vstr hiddenMarker) :=
  ⟨by decide, (mask_secret_fixed_marker "API_KEY" (Value.vstr "abc") "abc" (by decide)).1⟩

/-- C1 counterexample: the name API_KEY is classified secret and the
non-null value "hidden" is masked to the fixed marker, yet the result
does contain the original value as a substring, so the claim that the
result contains no substring of the original value fails as stated. -/
theorem mask_secret_substring_counterexample :
    isSecretName "API_KEY" = true ∧
    mask_if_secret "API_KEY" (some (Value.vstr "hidden")) = some (Value.vstr hiddenMarker) ∧
    strContains hiddenMarker "hidden" = true :=
  ⟨by decide, rfl, by decide⟩

/-- C2: the resolver fails with a configuration error whose message
contains "missing required env var" exactly when the variable is absent
from the environment, no default was supplied, and required is true;
and with required false and the variable absent it returns the null
sentinel instead of failing. -/
theorem env_missing_required_iff (environ : List (String × String)) (name : String)
    (caster : Option Caster) (default : Option Value) (required : Bool) :
    ((∃ m, resolve environ name caster default required =
          Except.error (EnvError.missingRequired m) ∧
        strContains m "missing required env var" = true) ↔
      (lookupAssoc environ name = none ∧ default = none ∧ required = true)) ∧
    (lookupAssoc environ name = none → default = none →
      resolve environ name caster none false = Except.ok none) := by
  constructor
  · constructor
    · rintro ⟨m, hm, _⟩
      unfold resolve at hm
      cases hl : lookupAssoc environ name with
      | some raw =>
        rw [hl] at hm
        cases caster with
        | none => exact absurd hm (by simp)
        | some c =>
          cases hac : applyCaster c raw <;> simp [hac] at hm
      | none =>
        rw [hl] at hm
        cases hd : default with
        | some d =>
          rw [hd] at hm
          exfalso
          cases d with
          | vstr s =>
            cases caster with
            | none => simp at hm
            | some c => cases hac : applyCaster c s <;> simp [hac] at hm
          | vint n => cases caster <;> simp at hm
          | vbool b => cases caster <;> simp at hm
          | vpath p => cases caster <;> simp at hm
          | vlist xs => cases caster <;> simp at hm
          | vdict kvs => cases caster <;> simp at hm
        | none =>
          rw [hd] at hm
          cases hr : required with
          | false => rw [hr] at hm; exact absurd hm (by simp)
          | true => exact ⟨rfl, rfl, rfl⟩
    · rintro ⟨hl, hd, hr⟩
      refine ⟨"missing required env var: " ++ name, ?_, ?_⟩
      · simp [resolve, hl, hd, hr]
      · exact strContains_append_left "missing required env var" (": " ++ name)
          "missing required env var" (by decide)
  · intro hl _
    simp [resolve, hl]

theorem env_missing_required_witness :
    (∃ m, resolve [] "MISSING_REQUIRED_VAR" none none true =
        Except.error (EnvError.missingRequired m) ∧
      strContains m "missing required env var" = true) ∧
    resolve [] "MISSING_VAR" none none false = Except.ok none :=
  ⟨(env_missing_required_iff [] "MISSING_REQUIRED_VAR" none none true).1.2
      ⟨rfl, rfl, rfl⟩,
   (env_missing_required_iff [] "MISSING_VAR" none none false).2 rfl rfl⟩

/-- C3: resolving a present raw environment string with the boolean
caster yields false exactly when the string case-insensitively matches
one of the falsy tokens false, 0, no and the empty string, and yields
true for every other string, including arbitrary text. -/
theorem bool_cast_falsy_iff (name s : String) :
    resolve [(name, s)] name (some Caster.toBool) none true =
      Except.ok (some (Value.vbool (!(falsyTokens.contains (lowerStr s))))) ∧
    (resolve [(name, s)] name (some Caster.toBool) none true =
        Except.ok (some (Value.vbool false)) ↔
      falsyTokens.contains (lowerStr s) = true) ∧
    castBool "anything" = true ∧ castBool "FALSE" = false ∧
    castBool "No" = false ∧ castBool "" = false := by
  have hl : lookupAssoc [(name, s)] name = some s := by
    simp [lookupAssoc, List.find?]
  refine ⟨?_, ?_, by decide, by decide, by decide, by decide⟩
  · simp [resolve, hl, applyCaster, castBool]
  · simp [resolve, hl, applyCaster, castBool]

/-- C4: when the variable is absent and a typed non-string default was
supplied, the resolver returns the default unchanged without passing it
through the caster; a string default is the one case that is passed
through the caster when a caster is given. -/
theorem default_passthrough (environ : List (String × String)) (name : String)
    (caster : Option Caster) (d : Value) (required : Bool)
    (habs : lookupAssoc environ name = none)
    (hns : ∀ s, d ≠ Value.vstr s) :
    resolve environ name caster (some d) required = Except.ok (some d) ∧
    (∀ (s : String) (c : Caster),
      resolve environ name (some c) (some (Value.vstr s)) required =
        match applyCaster c s with
        | Except.ok v => Except.ok (some v)
        | Except.error m => Except.error (EnvError.castFailure m)) := by
  constructor
  · unfold resolve
    rw [habs]
    cases d with
    | vstr s => exact absurd rfl (hns s)
    | vint n => cases caster <;> rfl
    | vbool b => cases caster <;> rfl
    | vpath p => cases caster <;> rfl
    | vlist xs => cases caster <;> rfl
    | vdict kvs => cases caster <;> rfl
  · intro s c
    unfold resolve
    rw [habs]

theorem default_passthrough_witness :
    lookupAssoc ([] : List (String × String)) "DATA_DIR" = none ∧
    resolve [] "DATA_DIR" (some Caster.toPath) (some (Value.vpath "./data")) true =
      Except.ok (some (Value.vpath "./data")) :=
  ⟨rfl,
   (default_passthrough [] "DATA_DIR" (some Caster.toPath) (Value.vpath "./data") true
      rfl (fun _ h => Value.noConfusion h)).1⟩

/-- C5: every entry of the registry snapshot comes from a declared data
member (never a callable), its name does not start with an underscore,
an environment-style name is fully uppercase, a YAML-style name is not
one of the framework-owned names; and querying the unchanged definition
twice yields the same ordered pairs. -/
theorem to_dict_only_data (st : Style) (attrs : List (String × Member))
    (n : String) (v : Value) (h : (n, v) ∈ to_dict st attrs) :
    (n, Member.data v) ∈ attrs ∧
    listStarts ['_'] n.data = false ∧
    (st = Style.envStyle → pyIsUpper n = true) ∧
    (st = Style.yamlStyle → frameworkNames.contains n = false) ∧
    to_dict st attrs = to_dict st attrs := by
  rw [to_dict, List.mem_filterMap] at h
  obtain ⟨⟨pn, pm⟩, hp, hf⟩ := h
  cases pm with
  | callable => simp at hf
  | data v0 =>
    by_cases hk : keepName st pn = true
    · simp only [hk, if_true, Option.some.injEq, Prod.mk.injEq] at hf
      obtain ⟨hpn, hv0⟩ := hf
      subst hpn
      subst hv0
      unfold keepName at hk
      rw [Bool.and_eq_true] at hk
      obtain ⟨h1, h2⟩ := hk
      rw [Bool.not_eq_true'] at h1
      refine ⟨hp, h1, ?_, ?_, rfl⟩
      · intro hst
        subst hst
        exact h2
      · intro hst
        subst hst
        rw [Bool.not_eq_true'] at h2
        exact h2
    · rw [Bool.not_eq_true] at hk
      simp [hk] at hf

theorem to_dict_only_data_witness :
    ("UPPER_VALUE", Value.vstr "included") ∈
      to_dict Style.envStyle
        [("UPPER_VALUE", Member.data (Value.vstr "included")),
         ("lower_value", Member.data (Value.vstr "excluded")),
         ("_private", Member.data (Value.vstr "excluded")),
         ("method", Member.callable)] ∧
    listStarts ['_'] "UPPER_VALUE".data = false ∧ pyIsUpper "UPPER_VALUE" = true :=
  have h : ("UPPER_VALUE", Value.vstr "included") ∈
      to_dict Style.envStyle
        [("UPPER_VALUE", Member.data (Value.vstr "included")),
         ("lower_value", Member.data (Value.vstr "excluded")),
         ("_private", Member.data (Value.vstr "excluded")),
         ("method", Member.callable)] := List.Mem.head _
  ⟨h, (to_dict_only_data _ _ _ _ h).2.1, (to_dict_only_data _ _ _ _ h).2.2.1 rfl⟩

/-- The registry entry with key AAA_FIRST used by the determinism test. -/
def pairA : String × Value := ("AAA_FIRST", Value.vstr "a")

/-- The registry entry with key MMM_MIDDLE used by the determinism test. -/
def pairM : String × Value := ("MMM_MIDDLE", Value.vstr "m")

/-- The registry entry with key ZZZ_LAST used by the determinism test. -/
def pairZ : String × Value := ("ZZZ_LAST", Value.vstr "z")

/-- Whether the rendered positions of the three test keys are strictly
increasing for the given declaration order of the registry. -/
def posIncreasing (reg : List (String × Value)) : Bool :=
  posLt (posOf (render "UnsortedConfig" reg) "AAA_FIRST")
      (posOf (render "UnsortedConfig" reg) "MMM_MIDDLE") &&
    posLt (posOf (render "UnsortedConfig" reg) "MMM_MIDDLE")
      (posOf (render "UnsortedConfig" reg) "ZZZ_LAST")

/-- C6: rendering is deterministic and alphabetically ordered: group
keys appear in alphabetical order and entries within each group in
alphabetical order of name, for every registry independent of
declaration order; in particular the keys AAA_FIRST, MMM_MIDDLE,
ZZZ_LAST occupy strictly increasing rendered positions for every one of
the six declaration orders. -/
theorem render_alphabetical (registry : List (String × Value)) :
    List.Sorted leStr ((grouped_items registry).map Prod.fst) ∧
    (∀ g ∈ grouped_items registry, List.Sorted leName g.snd) ∧
    posIncreasing [pairA, pairM, pairZ] = true ∧
    posIncreasing [pairA, pairZ, pairM] = true ∧
    posIncreasing [pairM, pairA, pairZ] = true ∧
    posIncreasing [pairM, pairZ, pairA] = true ∧
    posIncreasing [pairZ, pairA, pairM] = true ∧
    posIncreasing [pairZ, pairM, pairA] = true := by
  refine ⟨?_, ?_, by decide, by decide, by decide, by decide, by decide, by decide⟩
  · simp only [grouped_items, List.map_map]
    have hcomp : (Prod.fst ∘ fun k =>
        (k, (List.insertionSort leName registry).filter (fun p => groupKey p.fst == k))) =
          id := rfl
    rw [hcomp, List.map_id]
    exact List.sorted_insertionSort leStr _
  · intro g hg
    simp only [grouped_items, List.mem_map] at hg
    obtain ⟨k, hk, rfl⟩ := hg
    exact List.Pairwise.filter _ (List.sorted_insertionSort leName registry)

theorem render_alphabetical_witness :
    posIncreasing [pairZ, pairA, pairM] = true ∧
    List.Sorted leName ([pairA] : List (String × Value)) :=
  have hm : (("AAA", [pairA]) : String × List (String × Value)) ∈
      grouped_items [pairZ, pairA, pairM] := List.Mem.head _
  ⟨(render_alphabetical [pairZ, pairA, pairM]).2.2.2.2.2.2.1,
   (render_alphabetical [pairZ, pairA, pairM]).2.1 ("AAA", [pairA]) hm⟩

/-- C7: YAML loader construction fails with a file-not-found condition
exactly when the path has no content in the file system, fails with a
YAML parse error when the content does not parse, and produces a loader
instance exactly when the file exists and its content parses. -/
theorem yaml_loader_construction (fs : List (String × String))
    (parse : String → Except String Yaml) (path : String) :
    (lookupAssoc fs path = none →
      mkYamlLoader fs parse path = Except.error (YamlLoadError.fileNotFound path)) ∧
    (∀ content m, lookupAssoc fs path = some content → parse content = Except.error m →
      mkYamlLoader fs parse path = Except.error (YamlLoadError.yamlParseError m)) ∧
    ((∃ L, mkYamlLoader fs parse path = Except.ok L) ↔
      (∃ content tree, lookupAssoc fs path = some content ∧
        parse content = Except.ok tree)) := by
  refine ⟨?_, ?_, ?_, ?_⟩
  · intro hl
    simp [mkYamlLoader, hl]
  · intro content m hl hp
    simp [mkYamlLoader, hl, hp]
  · rintro ⟨L, hL⟩
    cases hl : lookupAssoc fs path with
    | none => simp [mkYamlLoader, hl] at hL
    | some content =>
      cases hp : parse content with
      | error m => simp [mkYamlLoader, hl, hp] at hL
      | ok tree => exact ⟨content, tree, rfl, hp⟩
  · rintro ⟨content, tree, hl, hp⟩
    exact ⟨{ config_path := path, raw_config := tree }, by simp [mkYamlLoader, hl, hp]⟩

theorem yaml_loader_construction_witness :
    mkYamlLoader [] (fun _ => Except.error "parse error") "nonexistent.yaml" =
      Except.error (YamlLoadError.fileNotFound "nonexistent.yaml") ∧
    mkYamlLoader [("bad.yaml", "invalid: yaml: content: [")]
        (fun _ => Except.error "parse error") "bad.yaml" =
      Except.error (YamlLoadError.yamlParseError "parse error") :=
  ⟨(yaml_loader_construction [] (fun _ => Except.error "parse error")
      "nonexistent.yaml").1 rfl,
   (yaml_loader_construction [("bad.yaml", "invalid: yaml: content: [")]
      (fun _ => Except.error "parse error") "bad.yaml").2.1
      "invalid: yaml: content: [" "parse error" rfl rfl⟩

/-- C8: dotted-path lookup splits the path on the dot and descends
through the raw tree: the computed descent agrees exactly with the
spec's descent relation, the stored value is returned when every
segment exists, and the supplied default is returned when any segment
is missing. -/
theorem dotted_get (t : Yaml) (segs : List String) (v : Yaml)
    (path : String) (d : Option Yaml) :
    (Descends t segs v ↔ getPath t segs = some v) ∧
    (getPath t (splitOnDot path) = some v → yget t path d = some v) ∧
    (getPath t (splitOnDot path) = none → yget t path d = d) := by
  refine ⟨⟨?_, ?_⟩, ?_, ?_⟩
  · intro h
    induction h with
    | here t0 => rfl
    | step kvs s t2 v0 rest hlk _ ih => simp [getPath, hlk, ih]
  · intro h
    induction segs generalizing t with
    | nil =>
      simp only [getPath, Option.some.injEq] at h
      rw [h]
      exact Descends.here v
    | cons s rest ih =>
      cases t with
      | scalar v0 => simp [getPath] at h
      | seqNode xs => simp [getPath] at h
      | mapNode kvs =>
        cases hlk : lookupAssoc kvs s with
        | none => simp [getPath, hlk] at h
        | some t2 =>
          simp only [getPath, hlk] at h
          exact Descends.step kvs s t2 v rest hlk (ih t2 h)
  · intro h
    simp [yget, h]
  · intro h
    simp [yget, h]

theorem dotted_get_witness :
    yget (Yaml.mapNode [("a", Yaml.mapNode [("c", Yaml.scalar (Value.vint 1))])])
        "a.b.c" (some (Yaml.scalar (Value.vstr "fallback"))) =
      some (Yaml.scalar (Value.vstr "fallback")) ∧
    yget (Yaml.mapNode [("a", Yaml.mapNode [("c", Yaml.scalar (Value.vint 1))])])
        "a.c" none = some (Yaml.scalar (Value.vint 1)) :=
  ⟨(dotted_get (Yaml.mapNode [("a", Yaml.mapNode [("c", Yaml.scalar (Value.vint 1))])])
      [] (Yaml.scalar (Value.vint 0)) "a.b.c"
      (some (Yaml.scalar (Value.vstr "fallback")))).2.2 rfl,
   (dotted_get (Yaml.mapNode [("a", Yaml.mapNode [("c", Yaml.scalar (Value.vint 1))])])
      [] (Yaml.scalar (Value.vint 1)) "a.c" none).2.1 rfl⟩

/-- C9: a sequence value is displayed as its item count in the form
[N items] and a mapping value as its key count in the form of N keys in
braces; the rendering depends only on the count, never on the contents,
and a non-secret entry line shows exactly the count form. -/
theorem count_abbreviation (xs ys : List Value)
    (kvs lws : List (String × Value)) (name : String) :
    renderValue (Value.vlist xs) = "[" ++ toString xs.length ++ " items]" ∧
    renderValue (Value.vdict kvs) = "\x7b" ++ toString kvs.length ++ " keys\x7d" ∧
    (xs.length = ys.length → renderValue (Value.vlist xs) = renderValue (Value.vlist ys)) ∧
    (kvs.length = lws.length →
      renderValue (Value.vdict kvs) = renderValue (Value.vdict lws)) ∧
    (isSecretName name = false →
      renderEntry name (Value.vlist xs) =
        name ++ " = " ++ ("[" ++ toString xs.length ++ " items]") ∧
      renderEntry name (Value.vdict kvs) =
        name ++ " = " ++ ("\x7b" ++ toString kvs.length ++ " keys\x7d")) := by
  refine ⟨rfl, rfl, ?_, ?_, ?_⟩
  · intro h
    simp [renderValue, h]
  · intro h
    simp [renderValue, h]
  · intro h
    constructor
    · simp [renderEntry, mask_if_secret, h, renderValue]
    · simp [renderEntry, mask_if_secret, h, renderValue]

theorem count_abbreviation_witness :
    isSecretName "features" = false ∧
    renderEntry "features" (Value.vlist [Value.vstr "search", Value.vstr "export"]) =
      "features" ++ " = " ++ ("[" ++ toString (2 : Nat) ++ " items]") ∧
    renderEntry "database_config" (Value.vdict [("host", Value.vstr "localhost"),
        ("port", Value.vint 5432), ("name", Value.vstr "testdb")]) =
      "database_config" ++ " = " ++ ("\x7b" ++ toString (3 : Nat) ++ " keys\x7d") :=
  ⟨by decide,
   ((count_abbreviation [Value.vstr "search", Value.vstr "export"] [] [] [] "features").2.2.2.2
      (by decide)).1,
   ((count_abbreviation [] [] [("host", Value.vstr "localhost"), ("port", Value.vint 5432),
        ("name", Value.vstr "testdb")] [] "database_config").2.2.2.2 (by decide)).2⟩

/-- C10: an empty definition has an empty registry of length zero, and
rendering it (or any definition) still succeeds and produces the boxed
header containing the upper-cased definition name. -/
theorem empty_registry_render (st : Style) (name : String)
    (reg : List (String × Value)) :
    to_dict st [] = [] ∧
    (to_dict st ([] : List (String × Member))).length = 0 ∧
    strContains (render name (to_dict st [])) (upperStr name) = true ∧
    strContains (render name reg) (upperStr name) = true := by
  refine ⟨rfl, rfl, ?_, ?_⟩
  · unfold render strContains
    simp only [String.data_append, List.append_assoc]
    rw [← List.append_assoc]
    exact containsSub_append_middle _ _ _
  · unfold render strContains
    simp only [String.data_append, List.append_assoc]
    rw [← List.append_assoc]
    exact containsSub_append_middle _ _ _
